import Mathlib

/-!
# make_vtk_camera: camera intrinsics and extrinsics to a rendering camera

A shallow embedding of `src/make_vtk_camera.cpp`.

* `make_transform` is generic in the entry type, and `make_vtk_camera` in a scalar type that
  carries the arithmetic of the C++ `double`.  Two scalar types are used.
* `binary64` is the `double` of IEEE-754: every operation rounds its exact result to the
  nearest binary64 value (`round64`: ties to even, subnormals, overflow to an infinity).
  Statements about the values that the source computes are made in `binary64`.
* `double α` has the same values (finite values of an ordered field `α`, the negative zero,
  `+inf`, `-inf`, `NaN`) with exact operations on finite values.  It is used for order
  properties (signs, bounds, monotonicity, vanishing) and over `ℝ` for `std::atan2`.
* In both, the sign of a zero that an operation computes is not recorded: a computed zero
  is `fin 0`.  The negative zero is a value of its own as an input, where `std::atan2`
  distinguishes it.
* `vtkMatrix4x4`, `vtkCamera`, `vgl_rotation_3d`, `vgl_vector_3d`, `vgl_point_2d` are the
  library types the source uses, seen through the members the source touches.
* `std::atan2` and `vnl_math::deg_per_rad` are arguments of `make_vtk_camera`; `atan2` and
  `deg_per_rad` below are their values over `ℝ`.
-/

namespace VtkCamera

/-! ## The scalar type -/

/-- A C++ `double`: a finite value of the field `α` (`fin 0` is the positive zero), the
negative zero, or one of the IEEE-754 special values. -/
inductive double (α : Type) where
  | fin (x : α)
  | nzero
  | pinf
  | ninf
  | nan
  deriving DecidableEq, Repr

namespace double

variable {α : Type}

/-- Conversion `int` to `double` (exact for every 32-bit `int`; the `int` 0 is the positive
zero). -/
def ofInt [LinearOrderedField α] (n : Int) : double α := fin (n : α)

/-- IEEE-754 subtraction in exact arithmetic.  The negative zero counts as 0, and a zero
result is recorded as `fin 0` whatever its sign. -/
def sub [LinearOrderedField α] : double α → double α → double α
  | nan, _ => nan
  | _, nan => nan
  | fin a, fin b => fin (a - b)
  | fin a, nzero => fin (a - 0)
  | nzero, fin b => fin (0 - b)
  | nzero, nzero => fin 0
  | fin _, pinf => ninf
  | nzero, pinf => ninf
  | fin _, ninf => pinf
  | nzero, ninf => pinf
  | pinf, fin _ => pinf
  | pinf, nzero => pinf
  | pinf, ninf => pinf
  | pinf, pinf => nan
  | ninf, fin _ => ninf
  | ninf, nzero => ninf
  | ninf, pinf => ninf
  | ninf, ninf => nan

/-- The product of an infinity of sign `s` (`true` is `+`) with the finite value `a`. -/
def infTimes [LinearOrderedField α] (s : Bool) (a : α) : double α :=
  if 0 < a then (if s then pinf else ninf)
  else if a < 0 then (if s then ninf else pinf)
  else nan

/-- IEEE-754 multiplication in exact arithmetic.  The negative zero counts as 0, and a zero
result is recorded as `fin 0` whatever its sign. -/
def mul [LinearOrderedField α] : double α → double α → double α
  | nan, _ => nan
  | _, nan => nan
  | fin a, fin b => fin (a * b)
  | fin _, nzero => fin 0
  | nzero, fin _ => fin 0
  | nzero, nzero => fin 0
  | fin a, pinf => infTimes true a
  | fin a, ninf => infTimes false a
  | pinf, fin b => infTimes true b
  | ninf, fin b => infTimes false b
  | nzero, pinf => nan
  | nzero, ninf => nan
  | pinf, nzero => nan
  | ninf, nzero => nan
  | pinf, pinf => pinf
  | pinf, ninf => ninf
  | ninf, pinf => ninf
  | ninf, ninf => pinf

/-- IEEE-754 division in exact arithmetic.  A zero divisor `fin 0` is the positive zero and
`nzero` the negative zero; a zero result is recorded as `fin 0` whatever its sign. -/
def div [LinearOrderedField α] : double α → double α → double α
  | nan, _ => nan
  | _, nan => nan
  | fin a, fin b =>
    if b = 0 then (if 0 < a then pinf else if a < 0 then ninf else nan) else fin (a / b)
  | fin a, nzero => if 0 < a then ninf else if a < 0 then pinf else nan
  | nzero, fin b => if b = 0 then nan else fin 0
  | nzero, nzero => nan
  | fin _, pinf => fin 0
  | fin _, ninf => fin 0
  | nzero, pinf => fin 0
  | nzero, ninf => fin 0
  | pinf, fin b => if b < 0 then ninf else pinf
  | ninf, fin b => if b < 0 then pinf else ninf
  | pinf, nzero => ninf
  | ninf, nzero => pinf
  | pinf, pinf => nan
  | pinf, ninf => nan
  | ninf, pinf => nan
  | ninf, ninf => nan

/-- The comparison `<=` of two doubles; false as soon as one of them is `NaN`; the two zeros
compare equal. -/
def le [LinearOrderedField α] : double α → double α → Prop
  | nan, _ => False
  | _, nan => False
  | ninf, _ => True
  | _, pinf => True
  | fin a, fin b => a ≤ b
  | fin a, nzero => a ≤ 0
  | nzero, fin b => 0 ≤ b
  | nzero, nzero => True
  | fin _, ninf => False
  | nzero, ninf => False
  | pinf, fin _ => False
  | pinf, nzero => False
  | pinf, ninf => False

/-- The comparison `<` of two doubles; false as soon as one of them is `NaN`; the two zeros
compare equal. -/
def lt [LinearOrderedField α] : double α → double α → Prop
  | nan, _ => False
  | _, nan => False
  | fin a, fin b => a < b
  | fin a, nzero => a < 0
  | nzero, fin b => 0 < b
  | nzero, nzero => False
  | fin _, pinf => True
  | nzero, pinf => True
  | fin _, ninf => False
  | nzero, ninf => False
  | pinf, _ => False
  | ninf, ninf => False
  | ninf, fin _ => True
  | ninf, nzero => True
  | ninf, pinf => True

instance [LinearOrderedField α] : Zero (double α) := ⟨fin 0⟩
instance [LinearOrderedField α] : One (double α) := ⟨fin 1⟩
instance [LinearOrderedField α] : Sub (double α) := ⟨sub⟩
instance [LinearOrderedField α] : Mul (double α) := ⟨mul⟩
instance [LinearOrderedField α] : Div (double α) := ⟨div⟩
instance [LinearOrderedField α] : LE (double α) := ⟨le⟩
instance [LinearOrderedField α] : LT (double α) := ⟨lt⟩
instance [LinearOrderedField α] : IntCast (double α) := ⟨ofInt⟩

end double

/-! ## Rounding to binary64 -/

/-- The integer nearest to `x`, a tie going to the even neighbour. -/
def roundHalfEven (x : ℚ) : Int :=
  if x - ⌊x⌋ < 1 / 2 then ⌊x⌋
  else if 1 / 2 < x - ⌊x⌋ then ⌊x⌋ + 1
  else if ⌊x⌋ % 2 = 0 then ⌊x⌋ else ⌊x⌋ + 1

/-- The binary64 value nearest to the rational `q` (round to nearest, ties to even): 53
significant bits in the binade of `q`, the subnormal spacing `2^-1074` below `2^-1022`, and
an infinity when the rounded magnitude reaches `2^1024`.  The sign of a zero result is not
recorded. -/
def round64 (q : ℚ) : double ℚ :=
  if q = 0 then double.fin 0
  else if (2 : ℚ) ^ (1024 : ℤ) ≤
      |(roundHalfEven (q / 2 ^ (max (Int.log 2 |q|) (-1022) - 52)) : ℚ)
        * 2 ^ (max (Int.log 2 |q|) (-1022) - 52)| then
    (if 0 < q then double.pinf else double.ninf)
  else double.fin ((roundHalfEven (q / 2 ^ (max (Int.log 2 |q|) (-1022) - 52)) : ℚ)
    * 2 ^ (max (Int.log 2 |q|) (-1022) - 52))

/-- Rounding of the result of an operation: a finite exact result is rounded to binary64,
a special value is kept. -/
def rnd64 : double ℚ → double ℚ
  | double.fin q => round64 q
  | x => x

/-- The C++ `double` with the binary64 arithmetic of IEEE-754: the values are those of
`double ℚ`, and each operation rounds its exact result to the nearest binary64 value.  A
finite input is a binary64 value when `round64` returns it unchanged. -/
def binary64 : Type := double ℚ

/-- A finite value of `binary64`. -/
abbrev binary64.fin (q : ℚ) : binary64 := double.fin q

instance : Zero binary64 := ⟨double.fin 0⟩
instance : One binary64 := ⟨double.fin 1⟩
instance : Sub binary64 := ⟨fun a b => rnd64 (double.sub a b)⟩
instance : Mul binary64 := ⟨fun a b => rnd64 (double.mul a b)⟩
instance : Div binary64 := ⟨fun a b => rnd64 (double.div a b)⟩
instance : LE binary64 := ⟨double.le⟩
instance : LT binary64 := ⟨double.lt⟩
instance : IntCast binary64 := ⟨fun n => round64 n⟩

/-! ## Library types -/

/-- The class `vgl_point_2d<T>`: the coordinates read by `x()` and `y()`. -/
structure vgl_point_2d (β : Type) where
  x : β
  y : β

/-- The class `vgl_vector_3d<T>`: the components read by `x()`, `y()` and `z()`. -/
structure vgl_vector_3d (β : Type) where
  x : β
  y : β
  z : β

/-- The class `vgl_rotation_3d<T>`, seen through `as_matrix()`, the only member the source
calls: `as_matrix r c` is the entry `R.as_matrix()[r][c]`. -/
structure vgl_rotation_3d (β : Type) where
  as_matrix : Fin 3 → Fin 3 → β

/-- The class `vtkMatrix4x4`: the member `double Element[4][4]`. -/
@[ext]
structure vtkMatrix4x4 (β : Type) where
  Element : Fin 4 → Fin 4 → β

namespace vtkMatrix4x4

variable {β : Type}

/-- Modelled from the spec: `vtkMatrix4x4::New()` is library code that is not in the
source; the spec has the entries (3,0), (3,1), (3,2) of a fresh matrix zero, and the
library constructs the identity matrix, which is what this definition returns. -/
def New [Zero β] [One β] : vtkMatrix4x4 β := ⟨fun i j => if i = j then 1 else 0⟩

/-- The method `SetElement(i, j, value)`: overwrite one entry. -/
def SetElement (m : vtkMatrix4x4 β) (i j : Fin 4) (value : β) : vtkMatrix4x4 β :=
  ⟨fun a b => if a = i ∧ b = j then value else m.Element a b⟩

end vtkMatrix4x4

/-- Modelled from the spec: the class `vtkCamera` is library code that is not in the source;
the spec treats it as the sink of the computed parameters, so it is the record of what the
source sets on it: each field holds the arguments of the setter of the same name. -/
structure vtkCamera (β : Type) where
  ModelTransformMatrix : vtkMatrix4x4 β
  Position : β × β × β
  FocalPoint : β × β × β
  ViewUp : β × β × β
  ClippingRange : β × β
  WindowCenter : β × β
  ViewAngle : β

/-! ## The two functions of the source -/

section source

variable {β : Type}

/-- The body of `make_transform` after the allocation of `m`: the double loop over the 3x3
block, then the four writes of the last column. -/
def make_transform_body (m : vtkMatrix4x4 β) [One β] (R : vgl_rotation_3d β)
    (T : vgl_vector_3d β) : vtkMatrix4x4 β :=
  let R_mat := R.as_matrix
  let m := (List.finRange 3).foldl
    (fun m r => (List.finRange 3).foldl
      (fun m c => m.SetElement r.castSucc c.castSucc (R_mat r c)) m) m
  let m := m.SetElement 0 3 T.x
  let m := m.SetElement 1 3 T.y
  let m := m.SetElement 2 3 T.z
  let m := m.SetElement 3 3 1
  m

/-- The function `make_transform`: a rotation and a translation to a 4x4 homogeneous
transform. -/
def make_transform [Zero β] [One β] (R : vgl_rotation_3d β) (T : vgl_vector_3d β) :
    vtkMatrix4x4 β :=
  make_transform_body vtkMatrix4x4.New R T

variable {δ : Type}

/-- The function `make_vtk_camera`, over a scalar type `δ` that carries the arithmetic of the
C++ `double`: `(n : δ)` is the conversion of the `int` `n`, and the literal `2.0` is the
converted integer 2.  The arguments `atan2` and `deg_per_rad` stand for `std::atan2` and
`vnl_math::deg_per_rad`. -/
def make_vtk_camera [Sub δ] [Mul δ] [Div δ] [IntCast δ] [Zero δ] [One δ]
    (atan2 : δ → δ → δ) (deg_per_rad : δ)
    (focal_len : δ) (nx ny : Int) (principal_pt : vgl_point_2d δ)
    (camera_rot : vgl_rotation_3d δ) (camera_trans : vgl_vector_3d δ)
    (depth_min depth_max : δ) : vtkCamera δ :=
  let camera_RT := make_transform camera_rot camera_trans
  let wcx := ((-2 : Int) : δ) * (principal_pt.x - (nx : δ) / ((2 : Int) : δ)) / (nx : δ)
  let wcy := ((2 : Int) : δ) * (principal_pt.y - (ny : δ) / ((2 : Int) : δ)) / (ny : δ)
  let view_angle := deg_per_rad * (((2 : Int) : δ) * atan2 ((ny : δ) / ((2 : Int) : δ)) focal_len)
  { ModelTransformMatrix := camera_RT
    Position := (((0 : Int) : δ), ((0 : Int) : δ), ((0 : Int) : δ))
    FocalPoint := (((0 : Int) : δ), ((0 : Int) : δ), ((1 : Int) : δ))
    ViewUp := (((0 : Int) : δ), ((-1 : Int) : δ), ((0 : Int) : δ))
    ClippingRange := (depth_min, depth_max)
    WindowCenter := (wcx, wcy)
    ViewAngle := view_angle }

/-- The value that `make_vtk_camera` writes to `std::cout` after the text `view_angle = `. -/
def make_vtk_camera_cout [Mul δ] [Div δ] [IntCast δ]
    (atan2 : δ → δ → δ) (deg_per_rad : δ) (focal_len : δ) (ny : Int) : δ :=
  deg_per_rad * (((2 : Int) : δ) * atan2 ((ny : δ) / ((2 : Int) : δ)) focal_len)

end source

/-! ## The library functions over the reals -/

/-- Modelled from the spec: `std::atan2` is library code that is not in the source; the
spec's `atan2` is the two-argument arctangent, so for finite arguments `atan2Real y x` is the
angle of the point `(x, y)`, in `(-π, π]`. -/
noncomputable def atan2Real (y x : ℝ) : ℝ :=
  if 0 < x then Real.arctan (y / x)
  else if x < 0 then (if 0 ≤ y then Real.arctan (y / x) + Real.pi else Real.arctan (y / x) - Real.pi)
  else if 0 < y then Real.pi / 2
  else if y < 0 then -(Real.pi / 2)
  else 0

open double in
/-- Modelled from the spec: `std::atan2(y, x)` on doubles, `atan2Real` on finite arguments
and the values of the C standard (Annex F) at the zeros, at the infinities and at `NaN`;
a zero result is recorded as `fin 0` whatever its sign. -/
noncomputable def atan2 : double ℝ → double ℝ → double ℝ
  | nan, _ => nan
  | _, nan => nan
  | fin y, fin x => fin (atan2Real y x)
  | fin y, nzero =>
    if 0 < y then fin (Real.pi / 2) else if y < 0 then fin (-(Real.pi / 2)) else fin Real.pi
  | nzero, fin x => if x < 0 then fin (-Real.pi) else fin 0
  | nzero, nzero => fin (-Real.pi)
  | fin _, pinf => fin 0
  | nzero, pinf => fin 0
  | fin y, ninf => if 0 ≤ y then fin Real.pi else fin (-Real.pi)
  | nzero, ninf => fin (-Real.pi)
  | pinf, fin _ => fin (Real.pi / 2)
  | pinf, nzero => fin (Real.pi / 2)
  | ninf, fin _ => fin (-(Real.pi / 2))
  | ninf, nzero => fin (-(Real.pi / 2))
  | pinf, pinf => fin (Real.pi / 4)
  | pinf, ninf => fin (3 * Real.pi / 4)
  | ninf, pinf => fin (-(Real.pi / 4))
  | ninf, ninf => fin (-(3 * Real.pi / 4))

/-- Modelled from the spec: `vnl_math::deg_per_rad` is a library constant that is not in the
source; the spec converts radians to degrees with it, so it is 180/π. -/
noncomputable def deg_per_rad : double ℝ := double.fin (180 / Real.pi)

/-! ## Auxiliary facts -/

theorem finRange_three : List.finRange 3 = [0, 1, 2] := by decide

theorem castSucc_two : (Fin.castSucc (2 : Fin 3) : Fin 4) = 2 := rfl

/-- Every entry of the matrix that the body of `make_transform` leaves behind, whatever the
matrix `m` it starts from. -/
theorem make_transform_body_Element {β : Type} [One β] (m : vtkMatrix4x4 β)
    (R : vgl_rotation_3d β) (T : vgl_vector_3d β) :
    (∀ r c : Fin 3, (make_transform_body m R T).Element r.castSucc c.castSucc = R.as_matrix r c) ∧
    (∀ c : Fin 3, (make_transform_body m R T).Element 3 c.castSucc = m.Element 3 c.castSucc) ∧
    (make_transform_body m R T).Element 0 3 = T.x ∧
    (make_transform_body m R T).Element 1 3 = T.y ∧
    (make_transform_body m R T).Element 2 3 = T.z ∧
    (make_transform_body m R T).Element 3 3 = 1 := by
  refine ⟨?_, ?_, ?_, ?_, ?_, ?_⟩
  · intro r c
    fin_cases r <;> fin_cases c <;>
      simp [make_transform_body, vtkMatrix4x4.SetElement, finRange_three, castSucc_two]
  · intro c
    fin_cases c <;>
      simp [make_transform_body, vtkMatrix4x4.SetElement, finRange_three, castSucc_two]
  all_goals simp [make_transform_body, vtkMatrix4x4.SetElement]

section arithmetic

open double

variable {α : Type} [LinearOrderedField α]

theorem div_def (a b : double α) : a / b = double.div a b := rfl

theorem le_def (a b : double α) : a ≤ b ↔ double.le a b := Iff.rfl

theorem lt_def (a b : double α) : a < b ↔ double.lt a b := Iff.rfl

theorem intCast_def (n : Int) : ((n : Int) : double α) = ofInt n := rfl

theorem ofInt_div_two (n : Int) : (ofInt n / ofInt 2 : double α) = fin ((n : α) / 2) := by
  simp [ofInt, div_def, double.div]

end arithmetic

/-! ## The transform builder -/

/-- C1: for every rotation `R` and translation `T`, the matrix `M = make_transform R T` has
`M[r][c] = R.as_matrix()[r][c]` for all `r, c` in {0,1,2}, and its last column
`(M[0][3], M[1][3], M[2][3], M[3][3])` is `(T.x, T.y, T.z, 1)`. -/
theorem make_transform_block_and_column {β : Type} [Zero β] [One β]
    (R : vgl_rotation_3d β) (T : vgl_vector_3d β) :
    (∀ r c : Fin 3, (make_transform R T).Element r.castSucc c.castSucc = R.as_matrix r c) ∧
    ((make_transform R T).Element 0 3, (make_transform R T).Element 1 3,
      (make_transform R T).Element 2 3, (make_transform R T).Element 3 3)
      = (T.x, T.y, T.z, 1) := by
  obtain ⟨hblock, -, h0, h1, h2, h3⟩ := make_transform_body_Element vtkMatrix4x4.New R T
  refine ⟨hblock, ?_⟩
  simp only [make_transform, h0, h1, h2, h3]

/-- C2: for every rotation `R` and translation `T`, row 3 of `make_transform R T` is exactly
`[0, 0, 0, 1]`; the entries (3,0), (3,1), (3,2) are never written by `make_transform`, whose
body leaves them as they are in the matrix it starts from, so that they are the entries of
the freshly created matrix. -/
theorem make_transform_row_three {β : Type} [Zero β] [One β]
    (R : vgl_rotation_3d β) (T : vgl_vector_3d β) :
    ((make_transform R T).Element 3 0 = 0 ∧ (make_transform R T).Element 3 1 = 0 ∧
      (make_transform R T).Element 3 2 = 0 ∧ (make_transform R T).Element 3 3 = 1) ∧
    (∀ m : vtkMatrix4x4 β,
      (make_transform_body m R T).Element 3 0 = m.Element 3 0 ∧
      (make_transform_body m R T).Element 3 1 = m.Element 3 1 ∧
      (make_transform_body m R T).Element 3 2 = m.Element 3 2) := by
  have key : ∀ m : vtkMatrix4x4 β,
      (make_transform_body m R T).Element 3 0 = m.Element 3 0 ∧
      (make_transform_body m R T).Element 3 1 = m.Element 3 1 ∧
      (make_transform_body m R T).Element 3 2 = m.Element 3 2 := by
    intro m
    obtain ⟨-, hrow, -⟩ := make_transform_body_Element m R T
    exact ⟨hrow 0, hrow 1, hrow 2⟩
  refine ⟨?_, key⟩
  obtain ⟨k0, k1, k2⟩ := key vtkMatrix4x4.New
  obtain ⟨-, -, -, -, -, h3⟩ := make_transform_body_Element vtkMatrix4x4.New R T
  refine ⟨?_, ?_, ?_, h3⟩
  · rw [make_transform, k0]; simp [vtkMatrix4x4.New]
  · rw [make_transform, k1]; simp [vtkMatrix4x4.New]
  · rw [make_transform, k2]; simp [vtkMatrix4x4.New]

/-- C3: when the matrix of `R` is the 3x3 identity and `T = (0,0,0)`, all sixteen entries of
`make_transform R T` are those of the 4x4 identity matrix. -/
theorem make_transform_identity {β : Type} [Zero β] [One β]
    (R : vgl_rotation_3d β) (T : vgl_vector_3d β)
    (hR : ∀ r c : Fin 3, R.as_matrix r c = if r = c then 1 else 0)
    (hx : T.x = 0) (hy : T.y = 0) (hz : T.z = 0) :
    ∀ i j : Fin 4, (make_transform R T).Element i j = if i = j then 1 else 0 := by
  obtain ⟨hblock, hrow, h0, h1, h2, h3⟩ := make_transform_body_Element vtkMatrix4x4.New R T
  have b := fun r c => (hblock r c).trans (hR r c)
  have b00 := b 0 0
  have b01 := b 0 1
  have b02 := b 0 2
  have b10 := b 1 0
  have b11 := b 1 1
  have b12 := b 1 2
  have b20 := b 2 0
  have b21 := b 2 1
  have b22 := b 2 2
  have r0 := (hrow 0).trans (show (vtkMatrix4x4.New : vtkMatrix4x4 β).Element 3 0 = 0 from rfl)
  have r1 := (hrow 1).trans (show (vtkMatrix4x4.New : vtkMatrix4x4 β).Element 3 1 = 0 from rfl)
  have r2 := (hrow 2).trans (show (vtkMatrix4x4.New : vtkMatrix4x4 β).Element 3 2 = 0 from rfl)
  rw [hx] at h0
  rw [hy] at h1
  rw [hz] at h2
  simp only [castSucc_two, Fin.castSucc_zero, Fin.castSucc_one] at b00 b01 b02 b10 b11 b12 b20 b21 b22 r0 r1 r2
  intro i j
  clear hblock hrow b hR
  fin_cases i <;> fin_cases j <;> simp [make_transform, *]

/-- The statement of `make_transform_identity` at the identity rotation and the zero
translation over the integers. -/
theorem make_transform_identity_witness :
    (make_transform (⟨fun r c => if r = c then 1 else 0⟩ : vgl_rotation_3d Int)
      ⟨0, 0, 0⟩).Element = fun i j => if i = j then 1 else 0 :=
  funext fun i => funext fun j =>
    make_transform_identity (⟨fun r c => if r = c then 1 else 0⟩ : vgl_rotation_3d Int)
      ⟨0, 0, 0⟩ (fun _ _ => rfl) rfl rfl rfl i j


/-! ## The camera parameter converter in exact arithmetic: window center and pose -/

section camera

open double

variable {α : Type} [LinearOrderedField α]

/-- C10: for every input, the camera returned by `make_vtk_camera` has position `(0,0,0)`,
focal point `(0,0,1)` and view-up `(0,-1,0)`. -/
theorem make_vtk_camera_pose
    (atan2 : double α → double α → double α) (deg_per_rad focal_len : double α)
    (nx ny : Int) (principal_pt : vgl_point_2d (double α))
    (camera_rot : vgl_rotation_3d (double α)) (camera_trans : vgl_vector_3d (double α))
    (depth_min depth_max : double α) :
    (make_vtk_camera atan2 deg_per_rad focal_len nx ny principal_pt camera_rot camera_trans
        depth_min depth_max).Position = (fin 0, fin 0, fin 0) ∧
    (make_vtk_camera atan2 deg_per_rad focal_len nx ny principal_pt camera_rot camera_trans
        depth_min depth_max).FocalPoint = (fin 0, fin 0, fin 1) ∧
    (make_vtk_camera atan2 deg_per_rad focal_len nx ny principal_pt camera_rot camera_trans
        depth_min depth_max).ViewUp = (fin 0, fin (-1), fin 0) := by
  simp [make_vtk_camera, intCast_def, ofInt]

end camera

/-! ## The camera parameter converter in exact arithmetic: clipping range, model transform,
window center range and monotonicity -/

section camera_more

open double

variable {α : Type} [LinearOrderedField α]

/-- C11: for every `depth_min` and `depth_max` (in any order, of any sign, infinite or `NaN`),
`make_vtk_camera` returns a camera whose clipping range is the pair `(depth_min, depth_max)`
as given, neither swapped nor clamped; the function is total, so the call always returns. -/
theorem make_vtk_camera_clipping_range
    (atan2 : double α → double α → double α) (deg_per_rad focal_len : double α)
    (nx ny : Int) (principal_pt : vgl_point_2d (double α))
    (camera_rot : vgl_rotation_3d (double α)) (camera_trans : vgl_vector_3d (double α))
    (depth_min depth_max : double α) :
    (make_vtk_camera atan2 deg_per_rad focal_len nx ny principal_pt camera_rot camera_trans
        depth_min depth_max).ClippingRange = (depth_min, depth_max) ∧
    (make_vtk_camera atan2 deg_per_rad focal_len nx ny principal_pt camera_rot camera_trans
        depth_max depth_min).ClippingRange = (depth_max, depth_min) := by
  exact ⟨rfl, rfl⟩

/-- C12: for every input, the model transform matrix installed on the camera returned by
`make_vtk_camera` is `make_transform camera_rot camera_trans`, and it is the same for every
other choice of `focal_len`, `nx`, `ny`, `principal_pt`, `depth_min` and `depth_max`. -/
theorem make_vtk_camera_model_transform
    (atan2 : double α → double α → double α) (deg_per_rad focal_len : double α)
    (nx ny : Int) (principal_pt : vgl_point_2d (double α))
    (camera_rot : vgl_rotation_3d (double α)) (camera_trans : vgl_vector_3d (double α))
    (depth_min depth_max : double α) :
    (make_vtk_camera atan2 deg_per_rad focal_len nx ny principal_pt camera_rot camera_trans
        depth_min depth_max).ModelTransformMatrix = make_transform camera_rot camera_trans ∧
    (∀ (focal_len2 : double α) (nx2 ny2 : Int) (principal_pt2 : vgl_point_2d (double α))
      (depth_min2 depth_max2 : double α),
      (make_vtk_camera atan2 deg_per_rad focal_len2 nx2 ny2 principal_pt2 camera_rot
        camera_trans depth_min2 depth_max2).ModelTransformMatrix =
      (make_vtk_camera atan2 deg_per_rad focal_len nx ny principal_pt camera_rot camera_trans
        depth_min depth_max).ModelTransformMatrix) := by
  exact ⟨rfl, fun _ _ _ _ _ _ => rfl⟩

end camera_more

/-! ## The transform as a rigid map -/

section rigid

variable {β : Type} [CommRing β]

/-- C14: the matrix `M = make_transform R T` acts on homogeneous points as the rigid map
`p ↦ R*p + T`: for every `R`, `T` and 3-vector `p` over a commutative ring,
`M * (p.x, p.y, p.z, 1) = ((R*p + T).x, (R*p + T).y, (R*p + T).z, 1)`; and when the matrix of
`R` is orthonormal, the top-left 3x3 block `B` of `M` satisfies `Bᵀ * B = 1`, with
`M[3][3] = 1`. -/
theorem make_transform_rigid_map (R : vgl_rotation_3d β) (T : vgl_vector_3d β) :
    (∀ p : vgl_vector_3d β,
      Matrix.mulVec (Matrix.of (make_transform R T).Element) ![p.x, p.y, p.z, 1]
        = ![(Matrix.mulVec (Matrix.of R.as_matrix) ![p.x, p.y, p.z]) 0 + T.x,
            (Matrix.mulVec (Matrix.of R.as_matrix) ![p.x, p.y, p.z]) 1 + T.y,
            (Matrix.mulVec (Matrix.of R.as_matrix) ![p.x, p.y, p.z]) 2 + T.z,
            1]) ∧
    ((Matrix.of R.as_matrix).transpose * Matrix.of R.as_matrix = 1 →
      (Matrix.of fun r c : Fin 3 => (make_transform R T).Element r.castSucc c.castSucc).transpose
          * (Matrix.of fun r c : Fin 3 => (make_transform R T).Element r.castSucc c.castSucc) = 1 ∧
      (make_transform R T).Element 3 3 = 1) := by
  obtain ⟨hblock, hrow, h0, h1, h2, h3⟩ := make_transform_body_Element vtkMatrix4x4.New R T
  have b := hblock
  have r0 := (hrow 0).trans (show (vtkMatrix4x4.New : vtkMatrix4x4 β).Element 3 0 = 0 from rfl)
  have r1 := (hrow 1).trans (show (vtkMatrix4x4.New : vtkMatrix4x4 β).Element 3 1 = 0 from rfl)
  have r2 := (hrow 2).trans (show (vtkMatrix4x4.New : vtkMatrix4x4 β).Element 3 2 = 0 from rfl)
  have b00 := b 0 0
  have b01 := b 0 1
  have b02 := b 0 2
  have b10 := b 1 0
  have b11 := b 1 1
  have b12 := b 1 2
  have b20 := b 2 0
  have b21 := b 2 1
  have b22 := b 2 2
  simp only [castSucc_two, Fin.castSucc_zero, Fin.castSucc_one] at b00 b01 b02 b10 b11 b12 b20 b21 b22 r0 r1 r2
  constructor
  · intro p
    funext i
    fin_cases i <;>
      simp [make_transform, Matrix.mulVec, Matrix.dotProduct, Fin.sum_univ_four,
        Fin.sum_univ_three, *]
  · intro horth
    have e : (Matrix.of fun r c : Fin 3 => (make_transform R T).Element r.castSucc c.castSucc)
        = Matrix.of R.as_matrix := by
      ext r c
      exact hblock r c
    rw [e]
    exact ⟨horth, h3⟩


/-- The statement of `make_transform_rigid_map` for the quarter turn about the z axis, the
translation (1, 2, 3) and the point (4, 5, 6), over the integers. -/
theorem make_transform_rigid_map_witness :
    (Matrix.of (⟨![![0, -1, 0], ![1, 0, 0], ![0, 0, 1]]⟩ : vgl_rotation_3d Int).as_matrix).transpose
      * Matrix.of (⟨![![0, -1, 0], ![1, 0, 0], ![0, 0, 1]]⟩ : vgl_rotation_3d Int).as_matrix = 1 ∧
    Matrix.mulVec (Matrix.of (make_transform
        (⟨![![0, -1, 0], ![1, 0, 0], ![0, 0, 1]]⟩ : vgl_rotation_3d Int) ⟨1, 2, 3⟩).Element)
        ![4, 5, 6, 1] = ![-5 + 1, 4 + 2, 6 + 3, 1] ∧
    ((Matrix.of fun r c : Fin 3 => (make_transform
        (⟨![![0, -1, 0], ![1, 0, 0], ![0, 0, 1]]⟩ : vgl_rotation_3d Int)
        ⟨1, 2, 3⟩).Element r.castSucc c.castSucc).transpose
      * (Matrix.of fun r c : Fin 3 => (make_transform
        (⟨![![0, -1, 0], ![1, 0, 0], ![0, 0, 1]]⟩ : vgl_rotation_3d Int)
        ⟨1, 2, 3⟩).Element r.castSucc c.castSucc) = 1 ∧
      (make_transform (⟨![![0, -1, 0], ![1, 0, 0], ![0, 0, 1]]⟩ : vgl_rotation_3d Int)
        ⟨1, 2, 3⟩).Element 3 3 = 1) :=
  ⟨by decide,
    ((make_transform_rigid_map (⟨![![0, -1, 0], ![1, 0, 0], ![0, 0, 1]]⟩ : vgl_rotation_3d Int) ⟨1, 2, 3⟩).1
      ⟨4, 5, 6⟩).trans (by decide),
    (make_transform_rigid_map (⟨![![0, -1, 0], ![1, 0, 0], ![0, 0, 1]]⟩ : vgl_rotation_3d Int) ⟨1, 2, 3⟩).2
      (by decide)⟩

end rigid


/-! ## Rounding to binary64: evaluation -/

section rounding

open double

theorem roundHalfEven_intCast (m : Int) : roundHalfEven (m : ℚ) = m := by
  simp [roundHalfEven]

theorem roundHalfEven_of_half_lt {x : ℚ} {f : Int} (h1 : (f : ℚ) + 1 / 2 < x)
    (h2 : x < f + 1) : roundHalfEven x = f + 1 := by
  have hf : ⌊x⌋ = f := by
    rw [Int.floor_eq_iff]
    exact ⟨by linarith, h2⟩
  have h3 : ¬ (x - f < 1 / 2) := by linarith
  have h4 : 1 / 2 < x - f := by linarith
  simp only [roundHalfEven, hf, h3, h4, if_true, if_false]

/-- The exponent that `round64` uses for `q`, from the binade of `q`. -/
theorem round64_exponent {q : ℚ} (hq : q ≠ 0) {e : Int} (he : -1022 ≤ e)
    (h1 : (2 : ℚ) ^ e ≤ |q|) (h2 : |q| < (2 : ℚ) ^ (e + 1)) :
    max (Int.log 2 |q|) (-1022) = e := by
  have hpos : 0 < |q| := abs_pos.mpr hq
  have a : e ≤ Int.log 2 |q| :=
    (Int.zpow_le_iff_le_log (by norm_num) hpos).mp (by simpa using h1)
  have b : Int.log 2 |q| < e + 1 :=
    (Int.lt_zpow_iff_log_lt (by norm_num) hpos).mp (by simpa using h2)
  omega

/-- Evaluation of `round64` at a rational whose binade and rounded significand are known. -/
theorem round64_eval {q : ℚ} (hq : q ≠ 0) {e : Int} (he : -1022 ≤ e)
    (h1 : (2 : ℚ) ^ e ≤ |q|) (h2 : |q| < (2 : ℚ) ^ (e + 1)) {m : Int}
    (hm : roundHalfEven (q / 2 ^ (e - 52)) = m)
    (hov : |(m : ℚ) * 2 ^ (e - 52)| < (2 : ℚ) ^ (1024 : ℤ)) :
    round64 q = fin ((m : ℚ) * 2 ^ (e - 52)) := by
  have hexp := round64_exponent hq he h1 h2
  have h3 : ¬ ((2 : ℚ) ^ (1024 : ℤ) ≤ |(m : ℚ) * 2 ^ (e - 52)|) := not_le.mpr hov
  simp only [round64, hq, hexp, hm, h3, if_false]

/-- A rational `m * 2^k` with `|m| < 2^53` and `k ≥ -1074`, below `2^1024` in magnitude, is a
binary64 value: `round64` returns it. -/
theorem round64_dyadic (m k : Int) (hm : |m| < 2 ^ 53) (hk : -1074 ≤ k)
    (hov : |(m : ℚ) * 2 ^ k| < (2 : ℚ) ^ (1024 : ℤ)) :
    round64 ((m : ℚ) * 2 ^ k) = fin ((m : ℚ) * 2 ^ k) := by
  by_cases hm0 : m = 0
  · subst hm0
    simp [round64]
  have h2pos : (0 : ℚ) < 2 ^ k := zpow_pos (by norm_num) k
  have hq : (m : ℚ) * 2 ^ k ≠ 0 := mul_ne_zero (by exact_mod_cast hm0) h2pos.ne'
  have hpos : 0 < |(m : ℚ) * 2 ^ k| := abs_pos.mpr hq
  have hlt : |(m : ℚ) * 2 ^ k| < (2 : ℚ) ^ (53 + k) := by
    rw [abs_mul, abs_of_pos h2pos, zpow_add₀ (by norm_num : (2 : ℚ) ≠ 0)]
    have : |(m : ℚ)| < 2 ^ (53 : ℤ) := by
      have := hm
      rw [← Int.cast_abs]
      exact_mod_cast this
    exact mul_lt_mul_of_pos_right this h2pos
  have hlog : Int.log 2 |(m : ℚ) * 2 ^ k| < 53 + k :=
    (Int.lt_zpow_iff_log_lt (by norm_num) hpos).mp (by simpa using hlt)
  obtain ⟨n, hn⟩ : ∃ n : ℕ, k - (max (Int.log 2 |(m : ℚ) * 2 ^ k|) (-1022) - 52) = n :=
    ⟨(k - (max (Int.log 2 |(m : ℚ) * 2 ^ k|) (-1022) - 52)).toNat, by omega⟩
  have hdiv : (m : ℚ) * 2 ^ k / 2 ^ (max (Int.log 2 |(m : ℚ) * 2 ^ k|) (-1022) - 52)
      = ((m * 2 ^ n : Int) : ℚ) := by
    rw [mul_div_assoc, ← zpow_sub₀ (by norm_num : (2 : ℚ) ≠ 0), hn]
    push_cast
    rw [zpow_natCast]
  have hback : ((m * 2 ^ n : Int) : ℚ) * 2 ^ (max (Int.log 2 |(m : ℚ) * 2 ^ k|) (-1022) - 52)
      = (m : ℚ) * 2 ^ k := by
    rw [← hdiv]
    field_simp
  have h3 : ¬ ((2 : ℚ) ^ (1024 : ℤ) ≤ |(m : ℚ) * 2 ^ k|) := not_le.mpr hov
  simp only [round64, hq, if_false, hdiv, roundHalfEven_intCast, hback, h3]

/-- The conversion of a 32-bit `int` to binary64 is exact. -/
theorem round64_int (n : Int) (h1 : -2 ^ 31 ≤ n) (h2 : n < 2 ^ 31) :
    round64 (n : ℚ) = fin (n : ℚ) := by
  have hb : |n| < 2 ^ 53 := by
    rw [abs_lt]
    constructor <;> omega
  have hq : |(n : ℚ)| < 2 ^ (53 : ℤ) := by
    rw [← Int.cast_abs]
    exact_mod_cast hb
  have := round64_dyadic n 0 hb (by norm_num) (by
    rw [zpow_zero, mul_one]
    exact hq.trans (by norm_num))
  simpa using this

/-- Half of a 32-bit `int` is a binary64 value. -/
theorem round64_half_int (n : Int) (h1 : -2 ^ 31 ≤ n) (h2 : n < 2 ^ 31) :
    round64 ((n : ℚ) / 2) = fin ((n : ℚ) / 2) := by
  have hb : |n| < 2 ^ 53 := by
    rw [abs_lt]
    constructor <;> omega
  have hq : |(n : ℚ)| < 2 ^ (53 : ℤ) := by
    rw [← Int.cast_abs]
    exact_mod_cast hb
  have e : (n : ℚ) * 2 ^ (-1 : ℤ) = (n : ℚ) / 2 := by
    rw [zpow_neg_one]
    rfl
  have := round64_dyadic n (-1) hb (by norm_num) (by
    rw [e, abs_div]
    have : |(n : ℚ)| / |(2 : ℚ)| ≤ |(n : ℚ)| := by
      rw [abs_two]
      linarith [abs_nonneg (n : ℚ)]
    exact (this.trans_lt hq).trans (by norm_num))
  rwa [e] at this

end rounding

/-! ## The camera parameter converter in binary64 arithmetic -/

section camera64

open double

theorem b64_sub_def (a b : binary64) : a - b = rnd64 (double.sub a b) := rfl

theorem b64_mul_def (a b : binary64) : a * b = rnd64 (double.mul a b) := rfl

theorem b64_div_def (a b : binary64) : a / b = rnd64 (double.div a b) := rfl

theorem b64_intCast_def (n : Int) : ((n : Int) : binary64) = round64 (n : ℚ) := rfl

/-- A rational that is written `m * 2^k` with `|m| < 2^53`, `k ≥ -1074`, below `2^1024` in
magnitude, is returned by `round64`. -/
theorem round64_of_eq_dyadic {q : ℚ} (m k : Int) (h : q = (m : ℚ) * 2 ^ k) (hm : |m| < 2 ^ 53)
    (hk : -1074 ≤ k) (hov : |q| < (2 : ℚ) ^ (1024 : ℤ)) : round64 q = fin q := by
  subst h
  exact round64_dyadic m k hm hk hov

/-- The conversion of a 32-bit `int` to binary64 is exact. -/
theorem b64_intCast (n : Int) (h1 : -2 ^ 31 ≤ n) (h2 : n < 2 ^ 31) :
    ((n : Int) : binary64) = binary64.fin (n : ℚ) :=
  round64_int n h1 h2

/-- In binary64, `double(n)/2` is the exact half of the 32-bit `int` `n`. -/
theorem b64_half (n : Int) (h1 : -2 ^ 31 ≤ n) (h2 : n < 2 ^ 31) :
    ((n : Int) : binary64) / ((2 : Int) : binary64) = binary64.fin ((n : ℚ) / 2) := by
  rw [b64_intCast n h1 h2, b64_intCast 2 (by norm_num) (by norm_num), b64_div_def]
  have : double.div (fin (n : ℚ)) (fin (((2 : Int) : ℚ))) = fin ((n : ℚ) / 2) := by
    simp [double.div]
  rw [this]
  exact round64_half_int n h1 h2

/-- C4: for every input of `make_vtk_camera` (the image dimensions being 32-bit `int`s), in
binary64 arithmetic, `double(nx)/2` and `double(ny)/2` are the exact halves `nx/2` and `ny/2`
(no integer truncation, also for odd dimensions), and the window center set on the camera is
`(wcx, wcy)` with `wcx = -2*(px - nx/2)/nx` and `wcy = 2*(py - ny/2)/ny`, each operation
being the binary64 one. -/
theorem make_vtk_camera_window_center
    (atan2 : binary64 → binary64 → binary64) (deg_per_rad focal_len : binary64)
    (nx ny : Int) (principal_pt : vgl_point_2d binary64)
    (camera_rot : vgl_rotation_3d binary64) (camera_trans : vgl_vector_3d binary64)
    (depth_min depth_max : binary64)
    (hnx : -2 ^ 31 ≤ nx ∧ nx < 2 ^ 31) (hny : -2 ^ 31 ≤ ny ∧ ny < 2 ^ 31) :
    ((nx : Int) : binary64) / ((2 : Int) : binary64) = binary64.fin ((nx : ℚ) / 2) ∧
    ((ny : Int) : binary64) / ((2 : Int) : binary64) = binary64.fin ((ny : ℚ) / 2) ∧
    (make_vtk_camera atan2 deg_per_rad focal_len nx ny principal_pt camera_rot camera_trans
        depth_min depth_max).WindowCenter
      = (binary64.fin (-2) * (principal_pt.x - binary64.fin ((nx : ℚ) / 2))
            / binary64.fin (nx : ℚ),
         binary64.fin 2 * (principal_pt.y - binary64.fin ((ny : ℚ) / 2))
            / binary64.fin (ny : ℚ)) := by
  refine ⟨b64_half nx hnx.1 hnx.2, b64_half ny hny.1 hny.2, ?_⟩
  simp only [make_vtk_camera, b64_half nx hnx.1 hnx.2, b64_half ny hny.1 hny.2]
  rw [b64_intCast nx hnx.1 hnx.2, b64_intCast ny hny.1 hny.2,
    b64_intCast 2 (by norm_num) (by norm_num), b64_intCast (-2) (by norm_num) (by norm_num)]
  norm_num


theorem b64_sub_fin (a b : ℚ) : binary64.fin a - binary64.fin b = round64 (a - b) := rfl

theorem b64_mul_fin (a b : ℚ) : binary64.fin a * binary64.fin b = round64 (a * b) := rfl

theorem b64_div_fin (a : ℚ) {b : ℚ} (hb : b ≠ 0) :
    binary64.fin a / binary64.fin b = round64 (a / b) := by
  simp [b64_div_def, double.div, hb, rnd64]

/-- The binary64 value nearest to -1/6. -/
theorem round64_neg_sixth :
    round64 (-1 / 6) = fin (-6004799503160661 / 36028797018963968) := by
  have hm : roundHalfEven ((-1 / 6 : ℚ) / 2 ^ ((-3 : ℤ) - 52)) = -6004799503160662 + 1 :=
    roundHalfEven_of_half_lt (by norm_num) (by norm_num)
  have := round64_eval (q := -1 / 6) (by norm_num) (e := -3) (by norm_num)
    (le_abs.mpr (Or.inr (by norm_num))) (abs_lt.mpr ⟨by norm_num, by norm_num⟩) hm
    (abs_lt.mpr ⟨by norm_num, by norm_num⟩)
  rw [this]
  congr 1
  norm_num

/-- The `wcx` of the source in binary64 for `nx = 640` and `px = 300`. -/
theorem wcx64_640_300 :
    ((-2 : Int) : binary64) * (binary64.fin 300 - ((640 : Int) : binary64) / ((2 : Int) : binary64))
      / ((640 : Int) : binary64) = binary64.fin (1 / 16) := by
  rw [b64_half 640 (by norm_num) (by norm_num), b64_intCast 640 (by norm_num) (by norm_num),
    b64_intCast (-2) (by norm_num) (by norm_num), b64_sub_fin,
    round64_of_eq_dyadic (-20) 0 (by norm_num) (by norm_num) (by norm_num)
      (abs_lt.mpr ⟨by norm_num, by norm_num⟩),
    b64_mul_fin,
    round64_of_eq_dyadic 40 0 (by norm_num) (by norm_num) (by norm_num)
      (abs_lt.mpr ⟨by norm_num, by norm_num⟩),
    b64_div_fin _ (by norm_num),
    round64_of_eq_dyadic 1 (-4) (by norm_num) (by norm_num) (by norm_num)
      (abs_lt.mpr ⟨by norm_num, by norm_num⟩)]
  norm_num

/-- The `wcy` of the source in binary64 for `ny = 480` and `py = 200`. -/
theorem wcy64_480_200 :
    ((2 : Int) : binary64) * (binary64.fin 200 - ((480 : Int) : binary64) / ((2 : Int) : binary64))
      / ((480 : Int) : binary64) = binary64.fin (-6004799503160661 / 36028797018963968) := by
  rw [b64_half 480 (by norm_num) (by norm_num), b64_intCast 480 (by norm_num) (by norm_num),
    b64_intCast 2 (by norm_num) (by norm_num), b64_sub_fin,
    round64_of_eq_dyadic (-40) 0 (by norm_num) (by norm_num) (by norm_num)
      (abs_lt.mpr ⟨by norm_num, by norm_num⟩),
    b64_mul_fin,
    round64_of_eq_dyadic (-80) 0 (by norm_num) (by norm_num) (by norm_num)
      (abs_lt.mpr ⟨by norm_num, by norm_num⟩),
    b64_div_fin _ (by norm_num)]
  have e : (((2 : Int) : ℚ) * ((200 : ℚ) - ((480 : Int) : ℚ) / 2)) / ((480 : Int) : ℚ) = -1 / 6 := by
    norm_num
  rw [e, round64_neg_sixth]


/-- C9, as stated, fails in binary64 arithmetic: with `ny = 480` and `py = 200` the computed
`wcy` is the double `-6004799503160661 / 2^55` (printed `-0.16666666666666666`), which is
not `-1/6`. -/
theorem window_center_sixth_counterexample :
    (make_vtk_camera (fun _ _ => binary64.fin 0) (binary64.fin 0) (binary64.fin 1) 640 480
        ⟨binary64.fin 300, binary64.fin 200⟩ ⟨fun _ _ => 0⟩ ⟨0, 0, 0⟩ (binary64.fin 1)
        (binary64.fin 2)).WindowCenter.2
      = binary64.fin (-6004799503160661 / 36028797018963968) ∧
    (make_vtk_camera (fun _ _ => binary64.fin 0) (binary64.fin 0) (binary64.fin 1) 640 480
        ⟨binary64.fin 300, binary64.fin 200⟩ ⟨fun _ _ => 0⟩ ⟨0, 0, 0⟩ (binary64.fin 1)
        (binary64.fin 2)).WindowCenter.2 ≠ binary64.fin (-1 / 6) := by
  have e : (make_vtk_camera (fun _ _ => binary64.fin 0) (binary64.fin 0) (binary64.fin 1) 640
      480 ⟨binary64.fin 300, binary64.fin 200⟩ ⟨fun _ _ => 0⟩ ⟨0, 0, 0⟩ (binary64.fin 1)
      (binary64.fin 2)).WindowCenter.2
      = binary64.fin (-6004799503160661 / 36028797018963968) := wcy64_480_200
  refine ⟨e, ?_⟩
  rw [e]
  intro h
  have h2 : (-6004799503160661 / 36028797018963968 : ℚ) = -1 / 6 := double.fin.inj h
  norm_num at h2

/-- C9, amended: in binary64 arithmetic, with `nx = 640` and `px = 300` the computed `wcx` is
exactly 1/16 (0.0625), and with `ny = 480` and `py = 200` the computed `wcy` is the double
nearest to -1/6, `-6004799503160661 / 2^55`, whatever the other arguments. -/
theorem window_center_concrete_values
    (atan2 : binary64 → binary64 → binary64) (deg_per_rad focal_len : binary64)
    (camera_rot : vgl_rotation_3d binary64) (camera_trans : vgl_vector_3d binary64)
    (depth_min depth_max : binary64) :
    (∀ (ny : Int) (py : binary64),
      (make_vtk_camera atan2 deg_per_rad focal_len 640 ny ⟨binary64.fin 300, py⟩ camera_rot
        camera_trans depth_min depth_max).WindowCenter.1 = binary64.fin (1 / 16)) ∧
    (∀ (nx : Int) (px : binary64),
      (make_vtk_camera atan2 deg_per_rad focal_len nx 480 ⟨px, binary64.fin 200⟩ camera_rot
        camera_trans depth_min depth_max).WindowCenter.2
        = binary64.fin (-6004799503160661 / 36028797018963968)) :=
  ⟨fun _ _ => wcx64_640_300, fun _ _ => wcy64_480_200⟩

/-- The binary64 value nearest to -3/5. -/
theorem round64_neg_three_fifths :
    round64 (-3 / 5) = fin (-5404319552844595 / 9007199254740992) := by
  have hm : roundHalfEven ((-3 / 5 : ℚ) / 2 ^ ((-1 : ℤ) - 52)) = -5404319552844596 + 1 :=
    roundHalfEven_of_half_lt (by norm_num) (by norm_num)
  have := round64_eval (q := -3 / 5) (by norm_num) (e := -1) (by norm_num)
    (le_abs.mpr (Or.inr (by norm_num))) (abs_lt.mpr ⟨by norm_num, by norm_num⟩) hm
    (abs_lt.mpr ⟨by norm_num, by norm_num⟩)
  rw [this]
  congr 1
  norm_num

/-- The window center of the source in binary64 on a 3x5 image with the principal point
`(3/2, 1)`: `wcx` is 0 and `wcy` is the double nearest to -3/5 (printed
`-0.59999999999999998`). -/
theorem window_center64_3_5 :
    (binary64.fin (-2) * (binary64.fin (3 / 2) - binary64.fin (((3 : Int) : ℚ) / 2))
        / binary64.fin ((3 : Int) : ℚ),
      binary64.fin 2 * (binary64.fin 1 - binary64.fin (((5 : Int) : ℚ) / 2))
        / binary64.fin ((5 : Int) : ℚ))
      = (binary64.fin 0, binary64.fin (-5404319552844595 / 9007199254740992)) := by
  have zero_round : round64 0 = fin 0 := by simp [round64]
  have ex : binary64.fin (-2) * (binary64.fin (3 / 2) - binary64.fin (((3 : Int) : ℚ) / 2))
      / binary64.fin ((3 : Int) : ℚ) = binary64.fin 0 := by
    rw [b64_sub_fin]
    have e : (3 / 2 : ℚ) - ((3 : Int) : ℚ) / 2 = 0 := by norm_num
    rw [e, zero_round, b64_mul_fin, mul_zero, zero_round, b64_div_fin _ (by norm_num),
      zero_div, zero_round]
  have ey : binary64.fin 2 * (binary64.fin 1 - binary64.fin (((5 : Int) : ℚ) / 2))
      / binary64.fin ((5 : Int) : ℚ)
      = binary64.fin (-5404319552844595 / 9007199254740992) := by
    rw [b64_sub_fin,
      round64_of_eq_dyadic (-3) (-1) (by norm_num) (by norm_num) (by norm_num)
        (abs_lt.mpr ⟨by norm_num, by norm_num⟩),
      b64_mul_fin,
      round64_of_eq_dyadic (-3) 0 (by norm_num) (by norm_num) (by norm_num)
        (abs_lt.mpr ⟨by norm_num, by norm_num⟩),
      b64_div_fin _ (by norm_num)]
    have e : (2 : ℚ) * ((1 : ℚ) - ((5 : Int) : ℚ) / 2) / ((5 : Int) : ℚ) = -3 / 5 := by
      norm_num
    rw [e, round64_neg_three_fifths]
  exact Prod.ext ex ey

/-- The statement of `make_vtk_camera_window_center` on a 3x5 image (odd dimensions) with the
principal point (3/2, 1), where the window center evaluates to `(0, -0.59999999999999998)`. -/
theorem make_vtk_camera_window_center_witness :
    (((-2 ^ 31 : Int) ≤ 3 ∧ (3 : Int) < 2 ^ 31) ∧ ((-2 ^ 31 : Int) ≤ 5 ∧ (5 : Int) < 2 ^ 31)) ∧
    (((3 : Int) : binary64) / ((2 : Int) : binary64) = binary64.fin (((3 : Int) : ℚ) / 2) ∧
    ((5 : Int) : binary64) / ((2 : Int) : binary64) = binary64.fin (((5 : Int) : ℚ) / 2) ∧
    (make_vtk_camera (fun y _ => y) (binary64.fin 57) (binary64.fin 1) 3 5
        ⟨binary64.fin (3 / 2), binary64.fin 1⟩ ⟨fun _ _ => 0⟩ ⟨0, 0, 0⟩ (binary64.fin 1)
        (binary64.fin 2)).WindowCenter
      = (binary64.fin (-2) * (binary64.fin (3 / 2) - binary64.fin (((3 : Int) : ℚ) / 2))
            / binary64.fin ((3 : Int) : ℚ),
         binary64.fin 2 * (binary64.fin 1 - binary64.fin (((5 : Int) : ℚ) / 2))
            / binary64.fin ((5 : Int) : ℚ))) ∧
    (make_vtk_camera (fun y _ => y) (binary64.fin 57) (binary64.fin 1) 3 5
        ⟨binary64.fin (3 / 2), binary64.fin 1⟩ ⟨fun _ _ => 0⟩ ⟨0, 0, 0⟩ (binary64.fin 1)
        (binary64.fin 2)).WindowCenter
      = (binary64.fin 0, binary64.fin (-5404319552844595 / 9007199254740992)) :=
  ⟨⟨⟨by norm_num, by norm_num⟩, ⟨by norm_num, by norm_num⟩⟩,
    make_vtk_camera_window_center (fun y _ => y) (binary64.fin 57) (binary64.fin 1) 3 5
      ⟨binary64.fin (3 / 2), binary64.fin 1⟩ ⟨fun _ _ => 0⟩ ⟨0, 0, 0⟩ (binary64.fin 1)
      (binary64.fin 2) ⟨by norm_num, by norm_num⟩ ⟨by norm_num, by norm_num⟩,
    ((make_vtk_camera_window_center (fun y _ => y) (binary64.fin 57) (binary64.fin 1) 3 5
      ⟨binary64.fin (3 / 2), binary64.fin 1⟩ ⟨fun _ _ => 0⟩ ⟨0, 0, 0⟩ (binary64.fin 1)
      (binary64.fin 2) ⟨by norm_num, by norm_num⟩ ⟨by norm_num, by norm_num⟩).2.2).trans
      window_center64_3_5⟩

end camera64

/-! ## The two-argument arctangent over the reals -/

section reals

open double Real

theorem atan2Real_of_pos_left {y : ℝ} (hy : 0 < y) (x : ℝ) :
    atan2Real y x = π / 2 - arctan (x / y) := by
  rcases lt_trichotomy x 0 with hx | hx | hx
  · have h1 : ¬ 0 < x := not_lt.mpr hx.le
    have h2 : x / y < 0 := div_neg_of_neg_of_pos hx hy
    have h3 : y / x = (x / y)⁻¹ := by rw [inv_div]
    simp only [atan2Real, h1, hx, hy.le, if_true, if_false]
    rw [h3, arctan_inv_of_neg h2]
    ring
  · subst hx
    simp [atan2Real, hy]
  · have h2 : 0 < x / y := div_pos hx hy
    have h3 : y / x = (x / y)⁻¹ := by rw [inv_div]
    simp only [atan2Real, hx, if_true]
    rw [h3, arctan_inv_of_pos h2]

theorem atan2Real_zero_left (x : ℝ) : atan2Real 0 x = if x < 0 then π else 0 := by
  rcases lt_trichotomy x 0 with hx | hx | hx
  · have h1 : ¬ 0 < x := not_lt.mpr hx.le
    simp [atan2Real, h1, hx]
  · subst hx
    simp [atan2Real]
  · have h1 : ¬ x < 0 := not_lt.mpr hx.le
    simp [atan2Real, h1, hx]

theorem atan2Real_of_pos_right (y : ℝ) {x : ℝ} (hx : 0 < x) :
    atan2Real y x = arctan (y / x) := by
  simp [atan2Real, hx]

theorem atan2Real_zero_right (y : ℝ) :
    atan2Real y 0 = if 0 < y then π / 2 else if y < 0 then -(π / 2) else 0 := by
  simp [atan2Real]

/-- The model of `std::atan2` on finite arguments is the argument of the complex number
`x + y i`. -/
theorem atan2Real_eq_arg (y x : ℝ) : atan2Real y x = Complex.arg ⟨x, y⟩ := by
  have key : ∀ a b : ℝ, 0 < a → Complex.arg ⟨a, b⟩ = arctan (b / a) := by
    intro a b ha
    have h1 : |Complex.arg ⟨a, b⟩| < π / 2 :=
      Complex.abs_arg_lt_pi_div_two_iff.mpr (Or.inl ha)
    have h2 := Complex.tan_arg ⟨a, b⟩
    exact (arctan_eq_of_tan_eq h2 ⟨(abs_lt.mp h1).1, (abs_lt.mp h1).2⟩).symm
  rcases lt_trichotomy x 0 with hx | hx | hx
  · have h1 : ¬ 0 < x := not_lt.mpr hx.le
    have hq : -y / -x = y / x := neg_div_neg_eq y x
    have hneg : (⟨x, y⟩ : ℂ) = -⟨-x, -y⟩ := by
      apply Complex.ext <;> simp
    rcases lt_trichotomy y 0 with hy | hy | hy
    · have h2 : ¬ 0 ≤ y := not_le.mpr hy
      simp only [atan2Real, h1, hx, h2, if_true, if_false]
      rw [hneg, Complex.arg_neg_eq_arg_sub_pi_of_im_pos (by simpa using hy),
        key (-x) (-y) (neg_pos.mpr hx), hq]
    · subst hy
      simp only [atan2Real, h1, hx, le_refl, if_true, if_false, zero_div, arctan_zero, zero_add]
      have : (⟨x, 0⟩ : ℂ) = ((x : ℝ) : ℂ) := rfl
      rw [this, Complex.arg_ofReal_of_neg hx]
    · simp only [atan2Real, h1, hx, hy.le, if_true, if_false]
      rw [hneg, Complex.arg_neg_eq_arg_add_pi_of_im_neg (by simpa using hy),
        key (-x) (-y) (neg_pos.mpr hx), hq]
  · subst hx
    rw [atan2Real_zero_right]
    rcases lt_trichotomy y 0 with hy | hy | hy
    · have h2 : ¬ 0 < y := not_lt.mpr hy.le
      simp only [h2, hy, if_true, if_false]
      exact (Complex.arg_eq_neg_pi_div_two_iff.mpr ⟨rfl, hy⟩).symm
    · subst hy
      simp only [lt_irrefl, if_false]
      exact Complex.arg_zero.symm
    · simp only [hy, if_true]
      exact (Complex.arg_eq_pi_div_two_iff.mpr ⟨rfl, hy⟩).symm
  · rw [atan2Real_of_pos_right y hx, key x y hx]

/-- For `y ≥ 0` the angle of `(x, y)` lies in `[0, π]`, strictly inside when `y > 0`. -/
theorem atan2Real_bounds {y : ℝ} (hy : 0 ≤ y) (x : ℝ) :
    (0 ≤ atan2Real y x ∧ atan2Real y x ≤ π) ∧
    (0 < y → 0 < atan2Real y x ∧ atan2Real y x < π) := by
  have hpi := pi_pos
  rcases hy.lt_or_eq with h | h
  · rw [atan2Real_of_pos_left h]
    have a := arctan_lt_pi_div_two (x / y)
    have b := neg_pi_div_two_lt_arctan (x / y)
    refine ⟨⟨by linarith, by linarith⟩, fun _ => ⟨by linarith, by linarith⟩⟩
  · subst h
    rw [atan2Real_zero_left]
    refine ⟨?_, fun k => absurd k (lt_irrefl _)⟩
    split_ifs
    · exact ⟨hpi.le, le_refl _⟩
    · exact ⟨le_refl _, hpi.le⟩

/-- For `y ≥ 0` the angle of `(x, y)` decreases as `x` grows, strictly when `y > 0`. -/
theorem atan2Real_antitone_right {y : ℝ} (hy : 0 ≤ y) {x1 x2 : ℝ} (hx : x1 < x2) :
    atan2Real y x2 ≤ atan2Real y x1 ∧ (0 < y → atan2Real y x2 < atan2Real y x1) := by
  have hpi := pi_pos
  rcases hy.lt_or_eq with h | h
  · rw [atan2Real_of_pos_left h, atan2Real_of_pos_left h]
    have a : arctan (x1 / y) < arctan (x2 / y) :=
      arctan_strictMono (div_lt_div_of_pos_right hx h)
    exact ⟨by linarith, fun _ => by linarith⟩
  · subst h
    rw [atan2Real_zero_left, atan2Real_zero_left]
    refine ⟨?_, fun k => absurd k (lt_irrefl _)⟩
    by_cases h1 : x1 < 0
    · rw [if_pos h1]
      split_ifs
      · exact le_refl _
      · exact hpi.le
    · have h2 : ¬ x2 < 0 := fun k => h1 (hx.trans k)
      rw [if_neg h1, if_neg h2]

/-- For `x ≥ 0` the angle of `(x, y)` grows with `y`, strictly when `x > 0`. -/
theorem atan2Real_monotone_left {x : ℝ} (hx : 0 ≤ x) {y1 y2 : ℝ} (hy : y1 < y2) :
    atan2Real y1 x ≤ atan2Real y2 x ∧ (0 < x → atan2Real y1 x < atan2Real y2 x) := by
  have hpi := pi_pos
  rcases hx.lt_or_eq with h | h
  · rw [atan2Real_of_pos_right y1 h, atan2Real_of_pos_right y2 h]
    have a : arctan (y1 / x) < arctan (y2 / x) :=
      arctan_strictMono (div_lt_div_of_pos_right hy h)
    exact ⟨a.le, fun _ => a⟩
  · subst h
    rw [atan2Real_zero_right, atan2Real_zero_right]
    refine ⟨?_, fun k => absurd k (lt_irrefl _)⟩
    split_ifs <;> linarith

theorem ofInt_two : (ofInt 2 : double ℝ) = fin 2 := by
  simp [ofInt]

theorem deg_scale (u : ℝ) : deg_per_rad * (fin 2 * fin u) = fin (180 / π * (2 * u)) := rfl

theorem deg_scale_le (u v : ℝ) :
    deg_per_rad * (fin 2 * fin u) ≤ deg_per_rad * (fin 2 * fin v) ↔ u ≤ v := by
  have h : 0 < 180 / π := div_pos (by norm_num) pi_pos
  rw [deg_scale, deg_scale]
  show 180 / π * (2 * u) ≤ 180 / π * (2 * v) ↔ u ≤ v
  constructor
  · intro k
    have := le_of_mul_le_mul_left k h
    linarith
  · intro k
    exact mul_le_mul_of_nonneg_left (by linarith) h.le

theorem deg_scale_lt (u v : ℝ) :
    deg_per_rad * (fin 2 * fin u) < deg_per_rad * (fin 2 * fin v) ↔ u < v := by
  have h : 0 < 180 / π := div_pos (by norm_num) pi_pos
  rw [deg_scale, deg_scale]
  show 180 / π * (2 * u) < 180 / π * (2 * v) ↔ u < v
  constructor
  · intro k
    have := lt_of_mul_lt_mul_left k h.le
    linarith
  · intro k
    exact mul_lt_mul_of_pos_left (by linarith) h

/-- The view angle set by `make_vtk_camera`, with the half of `ny` computed in the reals. -/
theorem view_angle_eq (focal_len : double ℝ) (nx ny : Int) (principal_pt : vgl_point_2d (double ℝ))
    (camera_rot : vgl_rotation_3d (double ℝ)) (camera_trans : vgl_vector_3d (double ℝ))
    (depth_min depth_max : double ℝ) :
    (make_vtk_camera atan2 deg_per_rad focal_len nx ny principal_pt camera_rot camera_trans
        depth_min depth_max).ViewAngle
      = deg_per_rad * (fin 2 * atan2 (fin ((ny : ℝ) / 2)) focal_len) := by
  simp only [make_vtk_camera, intCast_def, ofInt_div_two]
  rw [ofInt_two]

/-- The view angle set by `make_vtk_camera` for a finite positive focal length. -/
theorem view_angle_of_pos (f : ℝ) (hf : 0 < f) (nx ny : Int)
    (principal_pt : vgl_point_2d (double ℝ))
    (camera_rot : vgl_rotation_3d (double ℝ)) (camera_trans : vgl_vector_3d (double ℝ))
    (depth_min depth_max : double ℝ) :
    (make_vtk_camera atan2 deg_per_rad (fin f) nx ny principal_pt camera_rot camera_trans
        depth_min depth_max).ViewAngle
      = fin (180 / π * (2 * arctan ((ny : ℝ) / 2 / f))) := by
  rw [view_angle_eq]
  simp only [atan2, deg_scale, atan2Real_of_pos_right _ hf]

/-- The view angle set by `make_vtk_camera` for the focal length `+inf`. -/
theorem view_angle_of_pinf (nx ny : Int) (principal_pt : vgl_point_2d (double ℝ))
    (camera_rot : vgl_rotation_3d (double ℝ)) (camera_trans : vgl_vector_3d (double ℝ))
    (depth_min depth_max : double ℝ) :
    (make_vtk_camera atan2 deg_per_rad pinf nx ny principal_pt camera_rot camera_trans
        depth_min depth_max).ViewAngle = fin 0 := by
  rw [view_angle_eq]
  simp only [atan2, deg_scale]
  congr 1
  simp

end reals


/-! ## The camera parameter converter in exact real arithmetic: view angle -/

section view_angle

open double Real

/-- The angle that `atan2` returns for a finite `y ≥ 0` and a focal length that is not `NaN`. -/
theorem atan2_nonneg_left {y : ℝ} (hy : 0 ≤ y) (f : double ℝ) (hf : f ≠ nan) :
    ∃ a : ℝ, atan2 (fin y) f = fin a ∧ 0 ≤ a ∧ a ≤ π ∧
      (∀ x : ℝ, f = fin x → a = atan2Real y x) ∧
      (f = nzero → atan2Real y 0 ≤ a ∧ ∀ x : ℝ, x < 0 → a ≤ atan2Real y x) ∧
      (f = pinf → a = 0) ∧ (f = ninf → a = π) := by
  have hpi := pi_pos
  cases f with
  | fin x =>
    exact ⟨atan2Real y x, rfl, (atan2Real_bounds hy x).1.1, (atan2Real_bounds hy x).1.2,
      fun x2 h => (by rw [double.fin.inj h]), fun h => (by cases h), fun h => (by cases h),
      fun h => (by cases h)⟩
  | nzero =>
    rcases hy.lt_or_eq with h | h
    · refine ⟨π / 2, by simp [atan2, h], by linarith, by linarith, fun x h2 => (by cases h2),
        fun _ => ⟨?_, ?_⟩, fun h2 => (by cases h2), fun h2 => (by cases h2)⟩
      · rw [atan2Real_zero_right, if_pos h]
      · intro x hx
        rw [atan2Real_of_pos_left h]
        have : arctan (x / y) < 0 := by
          have := arctan_strictMono (div_neg_of_neg_of_pos hx h)
          rwa [arctan_zero] at this
        linarith
    · subst h
      refine ⟨π, by simp [atan2], hpi.le, le_refl _, fun x h2 => (by cases h2),
        fun _ => ⟨?_, ?_⟩, fun h2 => (by cases h2), fun h2 => (by cases h2)⟩
      · rw [atan2Real_zero_right]
        simp [hpi.le]
      · intro x hx
        rw [atan2Real_zero_left, if_pos hx]
  | pinf =>
    exact ⟨0, rfl, le_refl _, hpi.le, fun x h => (by cases h), fun h => (by cases h),
      fun _ => rfl, fun h => (by cases h)⟩
  | ninf =>
    exact ⟨π, by simp [atan2, hy], hpi.le, le_refl _, fun x h => (by cases h),
      fun h => (by cases h), fun h => (by cases h), fun _ => rfl⟩
  | nan => exact absurd rfl hf

/-- C7, as stated, fails for a negative image height: with `ny = -2` the view angle at
`focal_len = 1` is -90 degrees and the view angle at the larger `focal_len = 2` is not below
it. -/
theorem view_angle_negative_height_counterexample :
    (fin 1 : double ℝ) < fin 2 ∧
    (make_vtk_camera atan2 deg_per_rad (fin 1) 640 (-2) ⟨fin 320, fin 240⟩ ⟨fun _ _ => 0⟩
        ⟨0, 0, 0⟩ (fin 1) (fin 2)).ViewAngle = fin (-90) ∧
    ¬ ((make_vtk_camera atan2 deg_per_rad (fin 2) 640 (-2) ⟨fin 320, fin 240⟩ ⟨fun _ _ => 0⟩
        ⟨0, 0, 0⟩ (fin 1) (fin 2)).ViewAngle ≤
      (make_vtk_camera atan2 deg_per_rad (fin 1) 640 (-2) ⟨fin 320, fin 240⟩ ⟨fun _ _ => 0⟩
        ⟨0, 0, 0⟩ (fin 1) (fin 2)).ViewAngle) := by
  have e : (((-2 : Int) : ℝ)) / 2 = -1 := by norm_num
  have a1 : atan2Real (-1) 1 = -(π / 4) := by
    rw [atan2Real_of_pos_right _ one_pos, div_one, arctan_neg, arctan_one]
  have a2 : atan2Real (-1) 1 < atan2Real (-1) 2 := by
    rw [atan2Real_of_pos_right _ one_pos, atan2Real_of_pos_right _ two_pos]
    exact arctan_strictMono (by norm_num)
  refine ⟨show (1 : ℝ) < 2 from one_lt_two, ?_, ?_⟩
  · rw [view_angle_eq, e]
    simp only [atan2, deg_scale, a1]
    congr 1
    field_simp
    ring
  · rw [view_angle_eq, view_angle_eq, e]
    simp only [atan2, deg_scale_le]
    exact not_le.mpr a2

/-- C7, amended: for a fixed image height `ny ≥ 0`, the view angle computed by
`make_vtk_camera` is monotonically decreasing in `focal_len`: for all focal lengths
`f1 < f2` (finite, zero of either sign, or infinite) the view angle at `f2` is at most the
one at `f1`. -/
theorem view_angle_antitone_focal_len (nx ny : Int) (principal_pt : vgl_point_2d (double ℝ))
    (camera_rot : vgl_rotation_3d (double ℝ)) (camera_trans : vgl_vector_3d (double ℝ))
    (depth_min depth_max : double ℝ) (hny : 0 ≤ ny) (f1 f2 : double ℝ) (hf : f1 < f2) :
    (make_vtk_camera atan2 deg_per_rad f2 nx ny principal_pt camera_rot camera_trans
        depth_min depth_max).ViewAngle ≤
      (make_vtk_camera atan2 deg_per_rad f1 nx ny principal_pt camera_rot camera_trans
        depth_min depth_max).ViewAngle := by
  have hy : (0 : ℝ) ≤ (ny : ℝ) / 2 := div_nonneg (by exact_mod_cast hny) (by norm_num)
  have n1 : f1 ≠ nan := by
    rintro rfl
    cases f2 <;> exact hf
  have n2 : f2 ≠ nan := by
    rintro rfl
    cases f1 <;> exact hf
  obtain ⟨a1, e1, l1, u1, fin1, nz1, pi1, ni1⟩ := atan2_nonneg_left hy f1 n1
  obtain ⟨a2, e2, l2, u2, fin2, nz2, pi2, ni2⟩ := atan2_nonneg_left hy f2 n2
  rw [view_angle_eq, view_angle_eq, e1, e2, deg_scale_le]
  cases f1 with
  | fin a =>
    cases f2 with
    | fin b =>
      rw [fin1 a rfl, fin2 b rfl]
      exact (atan2Real_antitone_right hy (show a < b from hf)).1
    | nzero =>
      rw [fin1 a rfl]
      exact (nz2 rfl).2 a hf
    | pinf =>
      rw [pi2 rfl]
      exact l1
    | ninf => exact absurd hf id
    | nan => exact absurd rfl n2
  | nzero =>
    cases f2 with
    | fin b =>
      have hb : (0 : ℝ) < b := hf
      rw [fin2 b rfl]
      exact ((atan2Real_antitone_right hy hb).1).trans (nz1 rfl).1
    | nzero => exact absurd hf id
    | pinf =>
      rw [pi2 rfl]
      exact l1
    | ninf => exact absurd hf id
    | nan => exact absurd rfl n2
  | ninf =>
    rw [ni1 rfl]
    exact u2
  | pinf => exact absurd hf (by cases f2 <;> exact id)
  | nan => exact absurd rfl n1

/-- The statement of `view_angle_antitone_focal_len` for `ny = 480` and the focal lengths
1 and 2. -/
theorem view_angle_antitone_focal_len_witness :
    ((0 : Int) ≤ 480 ∧ (fin 1 : double ℝ) < fin 2) ∧
    (make_vtk_camera atan2 deg_per_rad (fin 2) 640 480 ⟨fin 320, fin 240⟩ ⟨fun _ _ => 0⟩
        ⟨0, 0, 0⟩ (fin 1) (fin 2)).ViewAngle ≤
      (make_vtk_camera atan2 deg_per_rad (fin 1) 640 480 ⟨fin 320, fin 240⟩ ⟨fun _ _ => 0⟩
        ⟨0, 0, 0⟩ (fin 1) (fin 2)).ViewAngle :=
  ⟨⟨by decide, show (1 : ℝ) < 2 from one_lt_two⟩,
    view_angle_antitone_focal_len 640 480 ⟨fin 320, fin 240⟩ ⟨fun _ _ => 0⟩ ⟨0, 0, 0⟩ (fin 1)
      (fin 2) (by decide) (fin 1) (fin 2) (show (1 : ℝ) < 2 from one_lt_two)⟩

/-- C8, as stated, fails for a negative focal length: with `focal_len = -1` the view angle
for `ny = 2` is 270 degrees and the view angle for the larger `ny = 4` is below it. -/
theorem view_angle_negative_focal_len_counterexample :
    (2 : Int) < 4 ∧
    (make_vtk_camera atan2 deg_per_rad (fin (-1)) 640 2 ⟨fin 320, fin 1⟩ ⟨fun _ _ => 0⟩
        ⟨0, 0, 0⟩ (fin 1) (fin 2)).ViewAngle = fin 270 ∧
    ¬ ((make_vtk_camera atan2 deg_per_rad (fin (-1)) 640 2 ⟨fin 320, fin 1⟩ ⟨fun _ _ => 0⟩
        ⟨0, 0, 0⟩ (fin 1) (fin 2)).ViewAngle ≤
      (make_vtk_camera atan2 deg_per_rad (fin (-1)) 640 4 ⟨fin 320, fin 1⟩ ⟨fun _ _ => 0⟩
        ⟨0, 0, 0⟩ (fin 1) (fin 2)).ViewAngle) := by
  have e2 : (((2 : Int) : ℝ)) / 2 = 1 := by norm_num
  have e4 : (((4 : Int) : ℝ)) / 2 = 2 := by norm_num
  have a1 : atan2Real 1 (-1) = 3 * π / 4 := by
    rw [atan2Real_of_pos_left one_pos, div_one, arctan_neg, arctan_one]
    ring
  have a2 : atan2Real 2 (-1) < atan2Real 1 (-1) := by
    rw [atan2Real_of_pos_left one_pos, atan2Real_of_pos_left two_pos]
    have : arctan (-1 / 1) < arctan (-1 / 2) := arctan_strictMono (by norm_num)
    linarith
  refine ⟨by decide, ?_, ?_⟩
  · rw [view_angle_eq, e2]
    simp only [atan2, deg_scale, a1]
    congr 1
    field_simp
    ring
  · rw [view_angle_eq, view_angle_eq, e2, e4]
    simp only [atan2, deg_scale_le]
    exact not_le.mpr a2

/-- C8, amended: for a fixed focal length `focal_len ≥ 0` other than the negative zero
(`+inf` included, `NaN` excluded), the view angle computed by `make_vtk_camera` is
monotonically increasing in `ny`: for all image heights `ny1 < ny2` the view angle for `ny1`
is at most the one for `ny2`. -/
theorem view_angle_monotone_height (nx : Int) (principal_pt : vgl_point_2d (double ℝ))
    (camera_rot : vgl_rotation_3d (double ℝ)) (camera_trans : vgl_vector_3d (double ℝ))
    (depth_min depth_max : double ℝ) (focal_len : double ℝ) (hf : fin 0 ≤ focal_len)
    (hz : focal_len ≠ nzero) (ny1 ny2 : Int) (hny : ny1 < ny2) :
    (make_vtk_camera atan2 deg_per_rad focal_len nx ny1 principal_pt camera_rot camera_trans
        depth_min depth_max).ViewAngle ≤
      (make_vtk_camera atan2 deg_per_rad focal_len nx ny2 principal_pt camera_rot camera_trans
        depth_min depth_max).ViewAngle := by
  have hy : (ny1 : ℝ) / 2 < (ny2 : ℝ) / 2 :=
    div_lt_div_of_pos_right (by exact_mod_cast hny) (by norm_num)
  rw [view_angle_eq, view_angle_eq]
  cases focal_len with
  | fin x =>
    have hx : (0 : ℝ) ≤ x := hf
    simp only [atan2, deg_scale_le]
    exact (atan2Real_monotone_left hx hy).1
  | nzero => exact absurd rfl hz
  | pinf =>
    simp only [atan2, deg_scale_le]
    exact le_refl _
  | ninf => exact absurd hf id
  | nan => exact absurd hf id

/-- The statement of `view_angle_monotone_height` for `focal_len = 1` and the image heights
2 and 4. -/
theorem view_angle_monotone_height_witness :
    ((fin 0 : double ℝ) ≤ fin 1 ∧ (fin 1 : double ℝ) ≠ nzero ∧ (2 : Int) < 4) ∧
    (make_vtk_camera atan2 deg_per_rad (fin 1) 640 2 ⟨fin 320, fin 1⟩ ⟨fun _ _ => 0⟩
        ⟨0, 0, 0⟩ (fin 1) (fin 2)).ViewAngle ≤
      (make_vtk_camera atan2 deg_per_rad (fin 1) 640 4 ⟨fin 320, fin 1⟩ ⟨fun _ _ => 0⟩
        ⟨0, 0, 0⟩ (fin 1) (fin 2)).ViewAngle :=
  ⟨⟨show (0 : ℝ) ≤ 1 from zero_le_one, fun h => (by cases h), by decide⟩,
    view_angle_monotone_height 640 ⟨fin 320, fin 1⟩ ⟨fun _ _ => 0⟩ ⟨0, 0, 0⟩ (fin 1) (fin 2)
      (fin 1) (show (0 : ℝ) ≤ 1 from zero_le_one) (fun h => (by cases h)) 2 4 (by decide)⟩

/-- C15, as stated, fails for the negative zero, which is `== 0`: with `focal_len = -0.0` and
`ny = 0`, `atan2(+0, -0)` is `π`, and the view angle is 360 degrees, not 0. -/
theorem view_angle_negative_zero_counterexample :
    ((nzero : double ℝ) ≤ fin 0 ∧ (fin 0 : double ℝ) ≤ nzero) ∧
    (make_vtk_camera atan2 deg_per_rad nzero 640 0 ⟨fin 320, fin 0⟩ ⟨fun _ _ => 0⟩
        ⟨0, 0, 0⟩ (fin 1) (fin 2)).ViewAngle = fin 360 ∧
    (make_vtk_camera atan2 deg_per_rad nzero 640 0 ⟨fin 320, fin 0⟩ ⟨fun _ _ => 0⟩
        ⟨0, 0, 0⟩ (fin 1) (fin 2)).ViewAngle ≠ fin 0 := by
  have e : (make_vtk_camera atan2 deg_per_rad nzero 640 0 ⟨fin 320, fin 0⟩ ⟨fun _ _ => 0⟩
      ⟨0, 0, 0⟩ (fin 1) (fin 2)).ViewAngle = fin 360 := by
    rw [view_angle_eq]
    have z : (((0 : Int) : ℝ)) / 2 = 0 := by norm_num
    rw [z]
    simp only [atan2, lt_irrefl, if_false, deg_scale]
    congr 1
    field_simp
    ring
  refine ⟨⟨le_refl (0 : ℝ), le_refl (0 : ℝ)⟩, e, ?_⟩
  rw [e]
  intro h
  have h2 : (360 : ℝ) = 0 := double.fin.inj h
  norm_num at h2

/-- C15, amended: for every `ny > 0`, `make_vtk_camera` with a zero focal length of either
sign sets a view angle of exactly 180 degrees; with `focal_len = +0.0` and `ny = 0` it sets
the view angle 0, and with `focal_len = -0.0` and `ny = 0` the view angle 360; all these
values are finite. -/
theorem view_angle_zero_focal_len (nx : Int) (principal_pt : vgl_point_2d (double ℝ))
    (camera_rot : vgl_rotation_3d (double ℝ)) (camera_trans : vgl_vector_3d (double ℝ))
    (depth_min depth_max : double ℝ) :
    (∀ ny : Int, 0 < ny →
      (make_vtk_camera atan2 deg_per_rad (fin 0) nx ny principal_pt camera_rot camera_trans
        depth_min depth_max).ViewAngle = fin 180 ∧
      (make_vtk_camera atan2 deg_per_rad nzero nx ny principal_pt camera_rot camera_trans
        depth_min depth_max).ViewAngle = fin 180) ∧
    (make_vtk_camera atan2 deg_per_rad (fin 0) nx 0 principal_pt camera_rot camera_trans
        depth_min depth_max).ViewAngle = fin 0 ∧
    (make_vtk_camera atan2 deg_per_rad nzero nx 0 principal_pt camera_rot camera_trans
        depth_min depth_max).ViewAngle = fin 360 := by
  have z : (((0 : Int) : ℝ)) / 2 = 0 := by norm_num
  refine ⟨?_, ?_, ?_⟩
  · intro ny hny
    have hy : (0 : ℝ) < (ny : ℝ) / 2 := div_pos (by exact_mod_cast hny) (by norm_num)
    have e : atan2Real ((ny : ℝ) / 2) 0 = π / 2 := by
      rw [atan2Real_zero_right, if_pos hy]
    constructor
    · rw [view_angle_eq]
      simp only [atan2, deg_scale, e]
      congr 1
      field_simp
    · rw [view_angle_eq]
      simp only [atan2, hy, if_true, deg_scale]
      congr 1
      field_simp
  · rw [view_angle_eq, z]
    have e : atan2Real 0 0 = 0 := by
      rw [atan2Real_zero_right]
      simp
    simp only [atan2, deg_scale, e]
    congr 1
    simp
  · rw [view_angle_eq, z]
    simp only [atan2, lt_irrefl, if_false, deg_scale]
    congr 1
    field_simp
    ring

/-- The statement of `view_angle_zero_focal_len` for the image height 480. -/
theorem view_angle_zero_focal_len_witness :
    (0 : Int) < 480 ∧
    (make_vtk_camera atan2 deg_per_rad (fin 0) 640 480 ⟨fin 320, fin 240⟩ ⟨fun _ _ => 0⟩
        ⟨0, 0, 0⟩ (fin 1) (fin 2)).ViewAngle = fin 180 ∧
    (make_vtk_camera atan2 deg_per_rad nzero 640 480 ⟨fin 320, fin 240⟩ ⟨fun _ _ => 0⟩
        ⟨0, 0, 0⟩ (fin 1) (fin 2)).ViewAngle = fin 180 :=
  ⟨by decide,
    (view_angle_zero_focal_len 640 ⟨fin 320, fin 240⟩ ⟨fun _ _ => 0⟩ ⟨0, 0, 0⟩ (fin 1)
      (fin 2)).1 480 (by decide)⟩

/-- C16, as stated, fails for the focal length `+inf`, which is `> 0`: the view angle is 0
for `ny = 2` and for `ny = -2`, neither strictly positive nor strictly negative. -/
theorem view_angle_sign_infinite_focal_len_counterexample :
    (fin 0 : double ℝ) < pinf ∧
    (make_vtk_camera atan2 deg_per_rad pinf 640 2 ⟨fin 320, fin 1⟩ ⟨fun _ _ => 0⟩
        ⟨0, 0, 0⟩ (fin 1) (fin 2)).ViewAngle = fin 0 ∧
    ¬ (fin 0 < (make_vtk_camera atan2 deg_per_rad pinf 640 2 ⟨fin 320, fin 1⟩ ⟨fun _ _ => 0⟩
        ⟨0, 0, 0⟩ (fin 1) (fin 2)).ViewAngle) ∧
    ¬ ((make_vtk_camera atan2 deg_per_rad pinf 640 (-2) ⟨fin 320, fin 1⟩ ⟨fun _ _ => 0⟩
        ⟨0, 0, 0⟩ (fin 1) (fin 2)).ViewAngle < fin 0) := by
  refine ⟨trivial, view_angle_of_pinf _ _ _ _ _ _ _, ?_, ?_⟩
  · rw [view_angle_of_pinf]
    exact lt_irrefl (0 : ℝ)
  · rw [view_angle_of_pinf]
    exact lt_irrefl (0 : ℝ)

/-- C16, amended: for every finite focal length `focal_len > 0`, the view angle of the
camera returned by `make_vtk_camera` is 0 when `ny = 0`, strictly negative when `ny < 0` and
strictly positive when `ny > 0`. -/
theorem view_angle_sign (f : ℝ) (hf : 0 < f) (nx ny : Int)
    (principal_pt : vgl_point_2d (double ℝ))
    (camera_rot : vgl_rotation_3d (double ℝ)) (camera_trans : vgl_vector_3d (double ℝ))
    (depth_min depth_max : double ℝ) :
    (ny = 0 →
      (make_vtk_camera atan2 deg_per_rad (fin f) nx ny principal_pt camera_rot camera_trans
        depth_min depth_max).ViewAngle = fin 0) ∧
    (ny < 0 →
      (make_vtk_camera atan2 deg_per_rad (fin f) nx ny principal_pt camera_rot camera_trans
        depth_min depth_max).ViewAngle < fin 0) ∧
    (0 < ny →
      fin 0 < (make_vtk_camera atan2 deg_per_rad (fin f) nx ny principal_pt camera_rot
        camera_trans depth_min depth_max).ViewAngle) := by
  have hc : (0 : ℝ) < 180 / π := div_pos (by norm_num) pi_pos
  rw [view_angle_of_pos f hf]
  refine ⟨?_, ?_, ?_⟩
  · intro h
    subst h
    congr 1
    simp
  · intro h
    have hq : (ny : ℝ) / 2 / f < 0 :=
      div_neg_of_neg_of_pos (div_neg_of_neg_of_pos (by exact_mod_cast h) (by norm_num)) hf
    have ha : arctan ((ny : ℝ) / 2 / f) < 0 := by
      have := arctan_strictMono hq
      rwa [arctan_zero] at this
    show 180 / π * (2 * arctan ((ny : ℝ) / 2 / f)) < 0
    exact mul_neg_of_pos_of_neg hc (by linarith)
  · intro h
    have hq : 0 < (ny : ℝ) / 2 / f :=
      div_pos (div_pos (by exact_mod_cast h) (by norm_num)) hf
    have ha : 0 < arctan ((ny : ℝ) / 2 / f) := by
      have := arctan_strictMono hq
      rwa [arctan_zero] at this
    show 0 < 180 / π * (2 * arctan ((ny : ℝ) / 2 / f))
    exact mul_pos hc (by linarith)

/-- The statement of `view_angle_sign` for the focal length 1 and the image height -2. -/
theorem view_angle_sign_witness :
    ((0 : ℝ) < 1 ∧ (-2 : Int) < 0) ∧
    (make_vtk_camera atan2 deg_per_rad (fin 1) 640 (-2) ⟨fin 320, fin 1⟩ ⟨fun _ _ => 0⟩
        ⟨0, 0, 0⟩ (fin 1) (fin 2)).ViewAngle < fin 0 :=
  ⟨⟨one_pos, by decide⟩,
    (view_angle_sign 1 one_pos 640 (-2) ⟨fin 320, fin 1⟩ ⟨fun _ _ => 0⟩ ⟨0, 0, 0⟩ (fin 1)
      (fin 2)).2.1 (by decide)⟩

end view_angle

end VtkCamera
